import Mathlib

/-!
Verification development for the Minesweeper AI in `minesweeper.py`.

The Python source is shallowly embedded as follows.

* A board cell is a pair of integers (`Cell`).
* `Sentence` mirrors the Python class `Sentence`: a finite set of cells, an
  integer count, plus the per-sentence `mines` and `safes` accumulator sets
  that `Sentence.mark_mine` / `Sentence.mark_safe` maintain.
* `MinesweeperAI` instances are embedded as `AIState`.  Python sentence
  objects are mutable and aliased (the knowledge list holds references; the
  pair list built by `itertools.combinations` keeps referencing objects even
  after they are removed from the knowledge list), so sentences live in an
  append-only `store : List Sentence` and `knowledge : List Nat` is the list
  of store indices corresponding to `self.knowledge`.
* Python's `list.remove(x)` / `x in list` compare sentences with
  `Sentence.__eq__`, i.e. structurally by `(cells, count)`; this is `valEq`.
* `check_knowledge` is recursive in the source with no structural bound, so
  the embedding takes explicit fuel; `CkResult.outOfFuel` means the fuel ran
  out, `CkResult.valueError` models the `ValueError` that
  `knowledge.remove(sentence)` would raise if the sentence were absent
  (that call is the only unguarded removal in the source).
-/

/-- A board position, as the Python `(i, j)` tuple of ints. -/
abbrev Cell := ℤ × ℤ

/-- Embedding of the Python class `Sentence`.  `cells` and `count` are the
logical content; `mines` and `safes` are the internal accumulator sets that
`Sentence.mark_mine` / `Sentence.mark_safe` fill. -/
structure Sentence where
  cells : Finset Cell
  count : ℤ
  mines : Finset Cell
  safes : Finset Cell

instance : Inhabited Sentence := ⟨⟨∅, 0, ∅, ∅⟩⟩

/-- Equality of embedded sentences is decidable field-wise.  (The derived
instance would decide later fields under a cast along the equality of
earlier fields, which blocks kernel evaluation; this one does not.) -/
instance : DecidableEq Sentence := fun s t =>
  decidable_of_iff
    (s.cells = t.cells ∧ s.count = t.count ∧ s.mines = t.mines ∧ s.safes = t.safes)
    (by cases s; cases t; simp)

namespace Sentence

/-- `Sentence.__init__(cells, count)`: stores the cells and the count and
starts with empty `mines` / `safes` accumulators; no validation of `count`
is performed. -/
def init (cells : Finset Cell) (count : ℤ) : Sentence :=
  ⟨cells, count, ∅, ∅⟩

/-- `Sentence.known_mines`: the body is `return self.mines` (the
count-based version is commented out in the source). -/
def known_mines (s : Sentence) : Finset Cell :=
  s.mines

/-- `Sentence.known_safes`: the body is `return self.safes`. -/
def known_safes (s : Sentence) : Finset Cell :=
  s.safes

/-- `Sentence.mark_mine(cell)`: if the cell is a member, remove it,
decrement the count, and record it in the sentence's `mines` set. -/
def mark_mine (s : Sentence) (c : Cell) : Sentence :=
  if c ∈ s.cells then
    ⟨s.cells.erase c, s.count - 1, insert c s.mines, s.safes⟩
  else s

/-- `Sentence.mark_safe(cell)`: if the cell is a member, remove it and
record it in the sentence's `safes` set; the count is unchanged. -/
def mark_safe (s : Sentence) (c : Cell) : Sentence :=
  if c ∈ s.cells then
    ⟨s.cells.erase c, s.count, s.mines, insert c s.safes⟩
  else s

end Sentence

/-- Row-major order on cells, used to enumerate a Python set of cells as a
list.  Python set iteration order is unspecified; every use of this
enumeration below is order-independent, so fixing row-major order is a
sound rendering of the source's `for c in s` loops. -/
def cellLe (a b : Cell) : Prop :=
  a.1 < b.1 ∨ (a.1 = b.1 ∧ a.2 ≤ b.2)

instance : DecidableRel cellLe := fun a b =>
  inferInstanceAs (Decidable (a.1 < b.1 ∨ (a.1 = b.1 ∧ a.2 ≤ b.2)))

instance : IsTrans Cell cellLe :=
  ⟨by intro a b c h1 h2; rcases h1 with h | ⟨h, h'⟩ <;> rcases h2 with g | ⟨g, g'⟩ <;>
    unfold cellLe <;> omega⟩

instance : IsAntisymm Cell cellLe :=
  ⟨by intro a b h1 h2; rcases h1 with h | ⟨h, h'⟩ <;> rcases h2 with g | ⟨g, g'⟩ <;>
    [skip; skip; skip; exact Prod.ext h (le_antisymm h' g')] <;> omega⟩

instance : IsTotal Cell cellLe :=
  ⟨by intro a b; unfold cellLe; omega⟩

/-- Enumerate a finite set of cells as a (row-major sorted) list. -/
def cellList (s : Finset Cell) : List Cell :=
  Quotient.liftOn s.val (List.insertionSort cellLe) (fun a b h =>
    List.eq_of_perm_of_sorted
      (((List.perm_insertionSort cellLe a).trans h).trans (List.perm_insertionSort cellLe b).symm)
      (List.sorted_insertionSort cellLe a) (List.sorted_insertionSort cellLe b))

theorem cellList_mem (s : Finset Cell) (c : Cell) : c ∈ cellList s ↔ c ∈ s := by
  rcases s with ⟨m, hm⟩
  induction m using Quotient.inductionOn with
  | h l =>
    simp only [cellList, Quotient.liftOn_mk]
    constructor
    · intro h; exact Finset.mem_def.2 ((List.perm_insertionSort cellLe l).mem_iff.1 h)
    · intro h; exact (List.perm_insertionSort cellLe l).mem_iff.2 (Finset.mem_def.1 h)

theorem cellList_nodup (s : Finset Cell) : (cellList s).Nodup := by
  rcases s with ⟨m, hm⟩
  induction m using Quotient.inductionOn with
  | h l =>
    simp only [cellList, Quotient.liftOn_mk]
    exact (List.perm_insertionSort cellLe l).nodup_iff.2 hm

/-- `Sentence.__eq__`: structural equality on `(cells, count)` only.
This is the comparison used by `x in list` and `list.remove(x)`. -/
def valEq (s : Sentence) (v : Finset Cell × ℤ) : Bool :=
  decide (s.cells = v.1 ∧ s.count = v.2)

/-- Embedding of a `MinesweeperAI` instance.  `store` is the heap of all
sentence objects ever created; `knowledge` holds the indices (in list
order) of the objects currently in `self.knowledge`. -/
structure AIState where
  height : ℕ
  width : ℕ
  moves_made : Finset Cell
  mines : Finset Cell
  safes : Finset Cell
  store : List Sentence
  knowledge : List ℕ

/-- Field-wise decidable equality of AI states (cast-free, see the
corresponding remark on `Sentence`). -/
instance : DecidableEq AIState := fun s t =>
  decidable_of_iff
    (s.height = t.height ∧ s.width = t.width ∧ s.moves_made = t.moves_made ∧
      s.mines = t.mines ∧ s.safes = t.safes ∧ s.store = t.store ∧ s.knowledge = t.knowledge)
    (by cases s; cases t; simp)

/-- `MinesweeperAI.__init__(height, width)`. -/
def initAI (h w : ℕ) : AIState :=
  ⟨h, w, ∅, ∅, ∅, [], []⟩

/-- Apply `f` to the store entries whose index occurs in `kn`
(`for sentence in self.knowledge: ...`); `i` is the index of the first
entry of the remaining store.  Applying `f` once per entry agrees with
Python's once-per-list-element iteration because the `f` used here
(`mark_mine c` / `mark_safe c`) is idempotent: after one application the
cell is no longer a member. -/
def markStore (f : Sentence → Sentence) (kn : List ℕ) : ℕ → List Sentence → List Sentence
  | _, [] => []
  | i, s :: rest => (if i ∈ kn then f s else s) :: markStore f kn (i + 1) rest

/-- `MinesweeperAI.mark_mine(cell)`: add the cell to `self.mines` and
narrow every sentence currently in `self.knowledge`. -/
def aiMarkMine (st : AIState) (c : Cell) : AIState :=
  { st with mines := insert c st.mines,
            store := markStore (fun s => s.mark_mine c) st.knowledge 0 st.store }

/-- `MinesweeperAI.mark_safe(cell)`: add the cell to `self.safes` and
narrow every sentence currently in `self.knowledge`. -/
def aiMarkSafe (st : AIState) (c : Cell) : AIState :=
  { st with safes := insert c st.safes,
            store := markStore (fun s => s.mark_safe c) st.knowledge 0 st.store }

/-- `for c in get_cells.copy(): self.mark_mine(c)`. -/
def aiMarkMineList (st : AIState) : List Cell → AIState
  | [] => st
  | c :: cs => aiMarkMineList (aiMarkMine st c) cs

/-- `for c in get_cells.copy(): self.mark_safe(c)`. -/
def aiMarkSafeList (st : AIState) : List Cell → AIState
  | [] => st
  | c :: cs => aiMarkSafeList (aiMarkSafe st c) cs

/-- The nine candidate pairs scanned by the two nested loops
`for i in range(cell[0]-1, cell[0]+2): for j in range(cell[1]-1, cell[1]+2)`. -/
def candList (cell : Cell) : List Cell :=
  [cell.1 - 1, cell.1, cell.1 + 1].flatMap fun i =>
    [cell.2 - 1, cell.2, cell.2 + 1].map fun j => (i, j)

/-- `MinesweeperAI.get_nearby(cell)`: the in-bounds neighbours of `cell`
(excluding `cell` itself) that are in neither `self.safes` nor
`self.moves_made`.  Known mines are not filtered out. -/
def get_nearby (st : AIState) (cell : Cell) : Finset Cell :=
  ((candList cell).filter fun c =>
    c ≠ cell ∧ 0 ≤ c.1 ∧ c.1 < st.height ∧ 0 ≤ c.2 ∧ c.2 < st.width ∧
      c ∉ st.safes ∧ c ∉ st.moves_made).toFinset

/-- Outcome of a fueled run of `check_knowledge`. -/
inductive CkResult where
  | ok (st : AIState)
  | valueError
  | outOfFuel

instance : DecidableEq CkResult := fun r t =>
  match r, t with
  | .ok s, .ok u => decidable_of_iff (s = u) (by simp)
  | .ok _, .valueError => isFalse (fun h => CkResult.noConfusion h)
  | .ok _, .outOfFuel => isFalse (fun h => CkResult.noConfusion h)
  | .valueError, .ok _ => isFalse (fun h => CkResult.noConfusion h)
  | .valueError, .valueError => isTrue rfl
  | .valueError, .outOfFuel => isFalse (fun h => CkResult.noConfusion h)
  | .outOfFuel, .ok _ => isFalse (fun h => CkResult.noConfusion h)
  | .outOfFuel, .valueError => isFalse (fun h => CkResult.noConfusion h)
  | .outOfFuel, .outOfFuel => isTrue rfl

/-- `list(itertools.combinations(knowledge, 2))`: ordered pairs of list
elements, first component earlier in the list. -/
def combos : List ℕ → List (ℕ × ℕ)
  | [] => []
  | x :: rest => (rest.map fun y => (x, y)) ++ combos rest

/-- `knowledge.remove(sentence)` where `sentence` currently has value `v`:
drop the first index whose store entry is structurally equal to `v`;
`none` when no entry matches (Python would raise `ValueError`). -/
def removeValE (st : AIState) (v : Finset Cell × ℤ) : Option AIState :=
  if st.knowledge.any (fun id => valEq ((st.store.getD id default)) v) then
    some { st with knowledge := st.knowledge.eraseP (fun id => valEq ((st.store.getD id default)) v) }
  else none

/-- `if sentence in knowledge: knowledge.remove(sentence)`: the guarded
form used in the subset-resolution branch; no error is possible. -/
def removeValIf (st : AIState) (v : Finset Cell × ℤ) : AIState :=
  { st with knowledge := st.knowledge.eraseP (fun id => valEq ((st.store.getD id default)) v) }

/-- `knowledge.append(Sentence(...))`: the freshly created object goes
to the end of the store and its index to the end of the knowledge list. -/
def appendSentence (st : AIState) (s : Sentence) : AIState :=
  { st with store := st.store ++ [s], knowledge := st.knowledge ++ [st.store.length] }

/-- The three mutually recursive pieces of `check_knowledge`: the whole
call (`main`), the per-sentence resolution loop at index `i` (`loop1`),
and the subset-resolution loop over the remaining combo list (`loop2`).
They are packed into one structurally fuel-recursive function so that
concrete runs reduce in the kernel. -/
inductive CkTask where
  | main (st : AIState)
  | loop1 (st : AIState) (i : ℕ)
  | loop2 (st : AIState) (L : List (ℕ × ℕ))

/-- One fuel-bounded step tree of `check_knowledge`; see `ck`, `phase1`,
`phase2` for the three entry points and the source correspondence. -/
def ckAux : ℕ → CkTask → CkResult
  | 0, _ => .outOfFuel
  | fuel + 1, .main st =>
    match ckAux fuel (.loop1 st 0) with
    | .ok st1 =>
      if 1 < st1.knowledge.length then ckAux fuel (.loop2 st1 (combos st1.knowledge))
      else .ok st1
    | r => r
  | fuel + 1, .loop1 st i =>
    if i < st.knowledge.length then
      let s := st.store.getD (st.knowledge.getD i 0) default
      if s.count = 0 then
        match removeValE (aiMarkSafeList st (cellList s.cells)) (∅, 0) with
        | some stB =>
          match ckAux fuel (.main stB) with
          | .ok stC => ckAux fuel (.loop1 stC (i + 1))
          | r => r
        | none => .valueError
      else if (s.cells.card : ℤ) = s.count ∧ 0 < s.count then
        match removeValE (aiMarkMineList st (cellList s.cells)) (∅, 0) with
        | some stB =>
          match ckAux fuel (.main stB) with
          | .ok stC => ckAux fuel (.loop1 stC (i + 1))
          | r => r
        | none => .valueError
      else ckAux fuel (.loop1 st (i + 1))
    else .ok st
  | _ + 1, .loop2 st [] => .ok st
  | fuel + 1, .loop2 st ((a, b) :: rest) =>
    let s0 := st.store.getD a default
    let s1 := st.store.getD b default
    if s0.cells ≠ ∅ ∧ s1.cells ≠ ∅ then
      if s1.cells ⊂ s0.cells then
        let st1 := appendSentence st (Sentence.init (s0.cells \ s1.cells) (s0.count - s1.count))
        let st2 := removeValIf st1 (s0.cells, s0.count)
        let st3 := removeValIf st2 (s1.cells, s1.count)
        match ckAux fuel (.main st3) with
        | .ok st4 => ckAux fuel (.loop2 st4 rest)
        | r => r
      else if s0.cells ⊂ s1.cells then
        let st1 := appendSentence st (Sentence.init (s1.cells \ s0.cells) (s1.count - s0.count))
        let st2 := removeValIf st1 (s0.cells, s0.count)
        let st3 := removeValIf st2 (s1.cells, s1.count)
        match ckAux fuel (.main st3) with
        | .ok st4 => ckAux fuel (.loop2 st4 rest)
        | r => r
      else ckAux fuel (.loop2 st rest)
    else ckAux fuel (.loop2 st rest)

/-- `MinesweeperAI.check_knowledge(knowledge)`.  The `while flag` loop in
the source runs exactly once (every `flag = True` in the body is commented
out), leaving one pass: the per-sentence resolution loop (`phase1`) and,
when more than one sentence is live, the subset-resolution loop over
`itertools.combinations(knowledge, 2)` (`phase2`). -/
def ck (fuel : ℕ) (st : AIState) : CkResult :=
  ckAux fuel (.main st)

/-- The loop `for sentence in knowledge:` of `check_knowledge`, with the
list mutating under the iterator exactly as in CPython: the iterator keeps
a plain index `i` into the current list.  Reading the sentence at `i`
yields current cells and count; a sentence whose count is `0` has all its
cells marked safe, a sentence with `len(cells) == count > 0` has all its
cells marked mines; in both branches the (now cell-less, count-zero)
sentence value is removed with the unguarded `knowledge.remove` and
`check_knowledge` re-enters recursively. -/
def phase1 (fuel : ℕ) (st : AIState) (i : ℕ) : CkResult :=
  ckAux fuel (.loop1 st i)

/-- The loop `for combo in combo_list:` of `check_knowledge`.  Each pair
holds references to sentence objects; their cells and counts are re-read
at processing time (objects may have been narrowed or removed from the
knowledge list by earlier iterations or recursive calls).  When both cell
sets are non-empty and one is a strict subset of the other, the derived
sentence is appended and each of the two objects is removed from the
knowledge list if (a sentence structurally equal to) it is still there,
then `check_knowledge` re-enters recursively. -/
def phase2 (fuel : ℕ) (st : AIState) (L : List (ℕ × ℕ)) : CkResult :=
  ckAux fuel (.loop2 st L)

/-- `MinesweeperAI.add_knowledge(cell, count)`: record the move, mark the
cell safe, propagate, build the new sentence from `get_nearby` (appended
only when that set is non-empty), and propagate again. -/
def add_knowledge (fuel : ℕ) (st : AIState) (cell : Cell) (count : ℤ) : CkResult :=
  let st1 := { st with moves_made := insert cell st.moves_made }
  let st2 := aiMarkSafe st1 cell
  match ck fuel st2 with
  | .ok st3 =>
    let sc := get_nearby st3 cell
    let st4 := if sc = ∅ then st3 else appendSentence st3 (Sentence.init sc count)
    ck fuel st4
  | r => r

/-- A sequence of `add_knowledge` calls from a given state. -/
def runObs (fuel : ℕ) (st : AIState) : List (Cell × ℤ) → CkResult
  | [] => .ok st
  | (c, n) :: rest =>
    match add_knowledge fuel st c n with
    | .ok st1 => runObs fuel st1 rest
    | r => r

/-- `MinesweeperAI.make_safe_move()`: scan `self.safes` for a cell not in
`self.moves_made`.  The method only reads the AI state; the state is
threaded through the result to express that. -/
def make_safe_move (st : AIState) : Option Cell × AIState :=
  ((cellList st.safes).find? fun c => c ∉ st.moves_made, st)

/-- `MinesweeperAI.make_random_move()`: list the cells that are neither
moves already made nor known mines, and pick one; the random choice of
`random.choice` is injected as the index `r` into the choices list.  The
method only reads the AI state; the state is threaded through the result. -/
def make_random_move (st : AIState) (r : ℕ) : Option Cell × AIState :=
  let choices := (List.range st.height).flatMap fun i =>
    (List.range st.width).filterMap fun j =>
      if ((i : ℤ), (j : ℤ)) ∉ st.moves_made ∧ ((i : ℤ), (j : ℤ)) ∉ st.mines then
        some ((i : ℤ), (j : ℤ))
      else none
  if 0 < choices.length then (some (choices.getD (r % choices.length) (0, 0)), st)
  else (none, st)

/-- `Minesweeper.nearby_mines(cell)` of the board class, for the mine
layout `L` on an `h × w` board: the number of in-bounds neighbours of
`cell` (excluding `cell` itself) that carry a mine.  The nine loop
iterations visit nine distinct pairs, so the count is the cardinality of
the corresponding set. -/
def nearby_mines (h w : ℕ) (L : Finset Cell) (cell : Cell) : ℤ :=
  (((candList cell).filter fun c =>
    c ≠ cell ∧ 0 ≤ c.1 ∧ c.1 < h ∧ 0 ≤ c.2 ∧ c.2 < w ∧ c ∈ L).toFinset.card : ℤ)

/-- Observations consistent with a real mine layout `L` on an `h × w`
board: every observed cell is mine-free and every reported count is the
board's true adjacent-mine count. -/
def Consistent (h w : ℕ) (L : Finset Cell) (obs : List (Cell × ℤ)) : Prop :=
  ∀ p ∈ obs, p.1 ∉ L ∧ p.2 = nearby_mines h w L p.1

/-- C3 counterexample: a freshly built sentence over one cell with count 1
has `count = len(cells) > 0`, yet `known_mines` returns the empty set, not
the cell set, because the method returns the `mines` accumulator. -/
theorem c3_known_mines_counterexample :
    (Sentence.init {((0:ℤ), (0:ℤ))} 1).count = ((Sentence.init {((0:ℤ), (0:ℤ))} 1).cells.card : ℤ) ∧
    (Sentence.init {((0:ℤ), (0:ℤ))} 1).cells ≠ ∅ ∧
    (Sentence.init {((0:ℤ), (0:ℤ))} 1).known_mines = ∅ ∧
    (Sentence.init {((0:ℤ), (0:ℤ))} 1).known_mines ≠ (Sentence.init {((0:ℤ), (0:ℤ))} 1).cells := by
  decide

/-- C3 amended: `known_mines` does not inspect `count` or `cells`; it
returns the sentence's internal `mines` accumulator, which contains
exactly the cells that have been marked via `mark_mine` on this sentence
(and is empty for a freshly constructed sentence whatever the count). -/
theorem known_mines_returns_accumulator (s : Sentence) (c : Cell) (h : c ∈ s.cells) :
    s.known_mines = s.mines ∧ (s.mark_mine c).known_mines = insert c s.mines ∧
    (Sentence.init s.cells s.count).known_mines = ∅ := by
  refine ⟨rfl, ?_, rfl⟩
  simp [Sentence.mark_mine, Sentence.known_mines, h]

/-- Witness for `known_mines_returns_accumulator` at a one-cell sentence. -/
theorem known_mines_returns_accumulator_witness :
    ((0:ℤ), (0:ℤ)) ∈ (Sentence.init {((0:ℤ), (0:ℤ))} 1).cells ∧
    ((Sentence.init {((0:ℤ), (0:ℤ))} 1).mark_mine ((0:ℤ), (0:ℤ))).known_mines =
      insert ((0:ℤ), (0:ℤ)) (Sentence.init {((0:ℤ), (0:ℤ))} 1).mines :=
  ⟨by decide, (known_mines_returns_accumulator (Sentence.init {((0:ℤ), (0:ℤ))} 1)
      ((0:ℤ), (0:ℤ)) (by decide)).2.1⟩

/-- C10: `make_safe_move` and `make_random_move` only read the AI state;
the state component of their result (the threaded state) is exactly the
input state — `moves_made`, `mines`, `safes`, `store` and `knowledge` are
all unchanged. -/
theorem move_selection_leaves_state_unchanged (st : AIState) (r : ℕ) :
    (make_safe_move st).2 = st ∧ (make_random_move st r).2 = st := by
  refine ⟨rfl, ?_⟩
  simp only [make_random_move]
  split <;> rfl

/-- C2 amended: every cell of the sentence built by `add_knowledge`
(i.e. every cell of `get_nearby`) is outside `safes` and outside
`moves_made` at the moment of insertion; membership in `mines` is not
excluded by `get_nearby`. -/
theorem get_nearby_excludes_safe_and_moved (st : AIState) (cell c : Cell)
    (h : c ∈ get_nearby st cell) : c ∉ st.safes ∧ c ∉ st.moves_made := by
  unfold get_nearby at h
  rw [List.mem_toFinset, List.mem_filter] at h
  have h2 := of_decide_eq_true h.2
  exact h2.2.2.2.2.2

/-- Witness for `get_nearby_excludes_safe_and_moved` on a fresh 2 by 2 AI. -/
theorem get_nearby_excludes_safe_and_moved_witness :
    ((0:ℤ), (0:ℤ)) ∈ get_nearby (initAI 2 2) (0, 1) ∧
    ((0:ℤ), (0:ℤ)) ∉ (initAI 2 2).safes ∧ ((0:ℤ), (0:ℤ)) ∉ (initAI 2 2).moves_made :=
  ⟨by decide, get_nearby_excludes_safe_and_moved (initAI 2 2) (0, 1) ((0:ℤ), (0:ℤ)) (by decide)⟩

/-- The AI state after the two consistent observations (0,1) → 1 and
(1,0) → 1 on a 2 by 2 board whose only true mine is (0,0). -/
def c2afterTwo : AIState :=
  ⟨2, 2, {(0, 1), (1, 0)}, ∅, {(0, 1), (1, 0)},
    [⟨{(0, 0), (1, 1)}, 1, ∅, {(1, 0)}⟩, ⟨{(0, 0), (1, 1)}, 1, ∅, ∅⟩], [0, 1]⟩

/-- The input to the first propagation pass of the third call
`add_knowledge((1,1), 1)`: the move is recorded and the cell marked safe,
exactly as in the first three lines of `add_knowledge`. -/
def c2midIn : AIState :=
  aiMarkSafe { c2afterTwo with moves_made := insert (1, 1) c2afterTwo.moves_made } (1, 1)

/-- The state at the moment `add_knowledge((1,1), 1)` builds its sentence:
the first propagation pass has classified (0,0) as a mine. -/
def c2midSt : AIState :=
  ⟨2, 2, {(0, 1), (1, 0), (1, 1)}, {(0, 0)}, {(0, 1), (1, 0), (1, 1)},
    [⟨∅, 0, {(0, 0)}, {(1, 0), (1, 1)}⟩, ⟨∅, 0, {(0, 0)}, {(1, 1)}⟩], []⟩

/-- C2 counterexample: in a reachable state (consistent observations on a
2 by 2 board with one mine at (0,0)), the sentence that
`add_knowledge((1,1), 1)` inserts has cell set exactly (0,0) — a cell
already classified as a mine at the moment of insertion. -/
theorem c2_new_sentence_contains_known_mine :
    Consistent 2 2 {(0, 0)} [((0, 1), 1), ((1, 0), 1), ((1, 1), 1)] ∧
    runObs 12 (initAI 2 2) [((0, 1), 1), ((1, 0), 1)] = .ok c2afterTwo ∧
    ck 12 c2midIn = .ok c2midSt ∧
    ((0:ℤ), (0:ℤ)) ∈ c2midSt.mines ∧
    get_nearby c2midSt (1, 1) = {(0, 0)} := by
  refine ⟨by simp only [Consistent]; decide, by decide, by decide, by decide, by decide⟩

set_option maxHeartbeats 2000000 in
/-- Symbolic run of `check_knowledge` on a live collection holding exactly
two sentences `A`, `B` with `A.cells` a strict subset of `B.cells` and
neither sentence (nor the derived one) resolvable by the per-sentence
rules: the subset branch fires once, appends the derived sentence
`(B.cells \ A.cells, B.count - A.count)` and removes BOTH `A` and `B`
from the live collection, leaving only the derived sentence. -/
theorem ck_subset_pair_aux (h w : ℕ) (mm mi sa : Finset Cell) (A B : Sentence)
    (hA0 : A.count ≠ 0) (hA1 : ¬((A.cells.card : ℤ) = A.count ∧ 0 < A.count))
    (hB0 : B.count ≠ 0) (hB1 : ¬((B.cells.card : ℤ) = B.count ∧ 0 < B.count))
    (hAne : A.cells ≠ ∅) (hsub : A.cells ⊂ B.cells)
    (hD0 : B.count - A.count ≠ 0)
    (hD1 : ¬(((B.cells \ A.cells).card : ℤ) = B.count - A.count ∧ 0 < B.count - A.count)) :
    ck 6 ⟨h, w, mm, mi, sa, [A, B], [0, 1]⟩ =
      .ok ⟨h, w, mm, mi, sa, [A, B, Sentence.init (B.cells \ A.cells) (B.count - A.count)], [2]⟩ := by
  have hBne : B.cells ≠ ∅ := by
    intro hB
    exact hAne (Finset.subset_empty.1 (hB ▸ hsub.subset))
  have hnBA : ¬ B.cells ⊂ A.cells := fun hh => ssubset_irrefl _ (hsub.trans hh)
  have hBA : B.cells ≠ A.cells := by
    intro e
    rw [← e] at hsub
    exact ssubset_irrefl _ hsub
  have hDA : B.cells \ A.cells ≠ A.cells := by
    intro e
    obtain ⟨x, hx⟩ := Finset.nonempty_iff_ne_empty.2 hAne
    exact (Finset.mem_sdiff.1 (e ▸ hx)).2 hx
  simp only [ck, ckAux, List.getD, List.get?_cons_zero, List.get?_cons_succ, Option.getD_some,
    List.length_cons, List.length_nil, combos, List.map, List.cons_append, List.nil_append,
    appendSentence, removeValIf, valEq, Sentence.init, List.eraseP_cons, List.map_nil,
    hA0, hA1, hB0, hB1, hD0, hD1, hAne, hBne, hnBA, hsub, hBA, hDA,
    if_true, if_false, decide_True, decide_False, Nat.zero_lt_succ, lt_irrefl,
    and_self, ne_eq, not_false_eq_true, Bool.cond_true, Bool.cond_false, false_and, and_false,
    List.eraseP_nil, and_true, true_and]
  norm_num
  simp only [combos, List.map, List.map_nil, List.nil_append, List.cons_append]
  simp only [ck, ckAux, List.getD, List.get?_cons_zero, List.get?_cons_succ, Option.getD_some,
    List.length_cons, List.length_nil, combos, List.map, List.cons_append, List.nil_append,
    appendSentence, removeValIf, valEq, Sentence.init, List.eraseP_cons, List.map_nil,
    hA0, hA1, hB0, hB1, hD0, hD1, hAne, hBne, hnBA, hsub, hBA, hDA,
    if_true, if_false, decide_True, decide_False, Nat.zero_lt_succ, lt_irrefl,
    and_self, ne_eq, not_false_eq_true, Bool.cond_true, Bool.cond_false, false_and, and_false,
    List.eraseP_nil, and_true, true_and]

/-- C1 amended: when the live collection holds two constraints `A`, `B`
with non-empty cell sets, `A.cells ⊂ B.cells`, and no per-sentence rule
applicable, propagation derives `(B.cells − A.cells, B.count − A.count)`
and removes BOTH constraints, keeping only the derived one: the subset
constraint `A` is not retained. -/
theorem subset_resolution_replaces_both (h w : ℕ) (mm mi sa : Finset Cell) (A B : Sentence)
    (hA0 : A.count ≠ 0) (hA1 : ¬((A.cells.card : ℤ) = A.count ∧ 0 < A.count))
    (hB0 : B.count ≠ 0) (hB1 : ¬((B.cells.card : ℤ) = B.count ∧ 0 < B.count))
    (hAne : A.cells ≠ ∅) (hsub : A.cells ⊂ B.cells)
    (hD0 : B.count - A.count ≠ 0)
    (hD1 : ¬(((B.cells \ A.cells).card : ℤ) = B.count - A.count ∧ 0 < B.count - A.count)) :
    ck 6 ⟨h, w, mm, mi, sa, [A, B], [0, 1]⟩ =
      .ok ⟨h, w, mm, mi, sa, [A, B, Sentence.init (B.cells \ A.cells) (B.count - A.count)], [2]⟩ :=
  ck_subset_pair_aux h w mm mi sa A B hA0 hA1 hB0 hB1 hAne hsub hD0 hD1

/-- The spec's own subset-resolution test data: `A = ({c1,c2,c3}, 1)` and
`B = ({c1,...,c5}, 2)` with `ci = (1, i)`. -/
def A1 : Sentence := Sentence.init {(1, 1), (1, 2), (1, 3)} 1

def B1 : Sentence := Sentence.init {(1, 1), (1, 2), (1, 3), (1, 4), (1, 5)} 2

def stC1 : AIState := ⟨8, 8, ∅, ∅, ∅, [A1, B1], [0, 1]⟩

def stC1out : AIState := ⟨8, 8, ∅, ∅, ∅, [A1, B1, Sentence.init {(1, 4), (1, 5)} 1], [2]⟩

/-- Witness for `subset_resolution_replaces_both` at the spec's test data. -/
theorem subset_resolution_replaces_both_witness :
    ck 6 ⟨8, 8, ∅, ∅, ∅, [A1, B1], [0, 1]⟩ =
      .ok ⟨8, 8, ∅, ∅, ∅,
        [A1, B1, Sentence.init (B1.cells \ A1.cells) (B1.count - A1.count)], [2]⟩ :=
  subset_resolution_replaces_both 8 8 ∅ ∅ ∅ A1 B1 (by decide) (by decide) (by decide)
    (by decide) (by decide) (by decide) (by decide) (by decide)

/-- C1 counterexample: on the spec's own test data the required constraint
`({c4,c5}, 1)` is derived, but the subset constraint `A` is NOT kept in
the live collection — propagation removes both combined constraints. -/
theorem c1_subset_constraint_not_retained :
    ck 10 stC1 = .ok stC1out ∧
    stC1out.knowledge = [2] ∧
    stC1out.store.getD 2 default = Sentence.init {(1, 4), (1, 5)} 1 ∧
    (∀ id ∈ stC1out.knowledge, stC1out.store.getD id default ≠ A1) := by
  refine ⟨by decide, by decide, by decide, by decide⟩

/-- C7 amended: a derived constraint whose count falls below 0 is neither
detected nor surfaced: `check_knowledge` returns normally and the
malformed constraint stays in the live collection (`Sentence.__init__`
performs no validation either). -/
theorem malformed_count_silently_accepted (h w : ℕ) (mm mi sa : Finset Cell) (A B : Sentence)
    (hA0 : A.count ≠ 0) (hA1 : ¬((A.cells.card : ℤ) = A.count ∧ 0 < A.count))
    (hB0 : B.count ≠ 0) (hB1 : ¬((B.cells.card : ℤ) = B.count ∧ 0 < B.count))
    (hAne : A.cells ≠ ∅) (hsub : A.cells ⊂ B.cells)
    (hneg : B.count - A.count < 0) :
    ck 6 ⟨h, w, mm, mi, sa, [A, B], [0, 1]⟩ =
      .ok ⟨h, w, mm, mi, sa, [A, B, Sentence.init (B.cells \ A.cells) (B.count - A.count)], [2]⟩ ∧
    (Sentence.init (B.cells \ A.cells) (B.count - A.count)).count < 0 :=
  ⟨ck_subset_pair_aux h w mm mi sa A B hA0 hA1 hB0 hB1 hAne hsub hneg.ne
    (fun hc => absurd hc.2 (not_lt.2 hneg.le)), hneg⟩

/-- Constraints `A = ({c1,c2,c3}, 2)` and `B = ({c1,c2,c3,c4}, 1)`:
subset resolution derives `({c4}, -1)`. -/
def A7 : Sentence := Sentence.init {(1, 1), (1, 2), (1, 3)} 2

def B7 : Sentence := Sentence.init {(1, 1), (1, 2), (1, 3), (1, 4)} 1

def stC7 : AIState := ⟨8, 8, ∅, ∅, ∅, [A7, B7], [0, 1]⟩

def stC7out : AIState := ⟨8, 8, ∅, ∅, ∅, [A7, B7, Sentence.init {(1, 4)} (-1)], [2]⟩

/-- A state whose single live constraint has `count = 5` on a one-cell
set: a count outside `[0, |cells|]` supplied as input. -/
def stC7bad : AIState := ⟨8, 8, ∅, ∅, ∅, [Sentence.init {(1, 1)} 5], [0]⟩

/-- Witness for `malformed_count_silently_accepted` at `A7`, `B7`. -/
theorem malformed_count_silently_accepted_witness :
    ck 6 ⟨8, 8, ∅, ∅, ∅, [A7, B7], [0, 1]⟩ =
      .ok ⟨8, 8, ∅, ∅, ∅,
        [A7, B7, Sentence.init (B7.cells \ A7.cells) (B7.count - A7.count)], [2]⟩ ∧
    (Sentence.init (B7.cells \ A7.cells) (B7.count - A7.count)).count < 0 :=
  malformed_count_silently_accepted 8 8 ∅ ∅ ∅ A7 B7 (by decide) (by decide) (by decide)
    (by decide) (by decide) (by decide) (by decide)

/-- C7 counterexample, both directions of the claim.  Derived: feeding
the constraints `({c1,c2,c3}, 2)` and `({c1,c2,c3,c4}, 1)` to propagation
derives `({c4}, -1)`, whose count -1 lies outside `[0, 1]`; no error is
raised and the constraint is silently kept live.  Input: a supplied
constraint `({c}, 5)` with count outside `[0, 1]` is stored unvalidated
by `Sentence.__init__` and propagation returns it untouched with a normal
result.  Both contradict the claimed fatal-error policy. -/
theorem c7_no_error_on_malformed :
    ck 10 stC7 = .ok stC7out ∧
    stC7out.knowledge = [2] ∧
    (stC7out.store.getD 2 default).cells = {(1, 4)} ∧
    (stC7out.store.getD 2 default).count = -1 ∧
    ck 10 stC7bad = .ok stC7bad := by
  refine ⟨by decide, by decide, by decide, by decide, by decide⟩

/-- C9: let `st3` be the state after `add_knowledge(cell, count)` has
recorded the move, marked the cell safe and run the first propagation
pass.  If the unresolved-neighbour set is empty, no sentence is created
(propagation simply runs again on `st3` unchanged); otherwise exactly one
new sentence `(get_nearby st3 cell, count)` is appended to the store and
to the live collection before the second propagation pass. -/
theorem add_knowledge_appends_one_sentence (fuel : ℕ) (st : AIState) (cell : Cell)
    (count : ℤ) (st3 : AIState)
    (h : ck fuel (aiMarkSafe { st with moves_made := insert cell st.moves_made } cell) = .ok st3) :
    (get_nearby st3 cell = ∅ → add_knowledge fuel st cell count = ck fuel st3) ∧
    (get_nearby st3 cell ≠ ∅ →
      add_knowledge fuel st cell count =
        ck fuel (appendSentence st3 (Sentence.init (get_nearby st3 cell) count)) ∧
      (appendSentence st3 (Sentence.init (get_nearby st3 cell) count)).knowledge =
        st3.knowledge ++ [st3.store.length] ∧
      (appendSentence st3 (Sentence.init (get_nearby st3 cell) count)).store =
        st3.store ++ [Sentence.init (get_nearby st3 cell) count]) := by
  unfold add_knowledge
  simp only [h]
  constructor
  · intro he
    rw [if_pos he]
  · intro hne
    rw [if_neg hne]
    exact ⟨rfl, rfl, rfl⟩

/-- The state after `add_knowledge` on a fresh 1 by 1 AI (respectively a
fresh 2 by 2 AI) has recorded the move `(0,0)` and marked it safe. -/
def c9mid1 : AIState := ⟨1, 1, {(0, 0)}, ∅, {(0, 0)}, [], []⟩

def c9mid2 : AIState := ⟨2, 2, {(0, 0)}, ∅, {(0, 0)}, [], []⟩

/-- Witness for `add_knowledge_appends_one_sentence`: on a 1 by 1 board
the neighbour set of `(0,0)` is empty and nothing is appended; on a 2 by 2
board it is non-empty and exactly one sentence id is appended. -/
theorem add_knowledge_appends_one_sentence_witness :
    (get_nearby c9mid1 (0, 0) = ∅ ∧ add_knowledge 5 (initAI 1 1) (0, 0) 0 = ck 5 c9mid1) ∧
    (get_nearby c9mid2 (0, 0) ≠ ∅ ∧
      (appendSentence c9mid2 (Sentence.init (get_nearby c9mid2 (0, 0)) 1)).knowledge =
        c9mid2.knowledge ++ [c9mid2.store.length]) :=
  ⟨⟨by decide, (add_knowledge_appends_one_sentence 5 (initAI 1 1) (0, 0) 0 c9mid1
      (by decide)).1 (by decide)⟩,
   ⟨by decide, ((add_knowledge_appends_one_sentence 5 (initAI 2 2) (0, 0) 1 c9mid2
      (by decide)).2 (by decide)).2.1⟩⟩

theorem cellList_toFinset (s : Finset Cell) : (cellList s).toFinset = s := by
  ext c
  rw [List.mem_toFinset, cellList_mem]

theorem markStore_length (f : Sentence → Sentence) (kn : List ℕ) :
    ∀ (store : List Sentence) (n : ℕ), (markStore f kn n store).length = store.length := by
  intro store
  induction store with
  | nil => intro n; rfl
  | cons s rest ih => intro n; simp [markStore, ih]

theorem markStore_getD (f : Sentence → Sentence) (kn : List ℕ) :
    ∀ (store : List Sentence) (n p : ℕ),
    (markStore f kn n store).getD p default =
      if n + p ∈ kn ∧ p < store.length then f (store.getD p default)
      else store.getD p default := by
  intro store
  induction store with
  | nil =>
    intro n p
    simp [markStore]
  | cons s rest ih =>
    intro n p
    cases p with
    | zero =>
      simp only [markStore, List.getD_cons_zero, Nat.add_zero, List.length_cons,
        Nat.zero_lt_succ, and_true]
    | succ q =>
      simp only [markStore, List.getD_cons_succ, List.length_cons]
      rw [ih (n + 1) q]
      have harith : n + 1 + q = n + (q + 1) := by omega
      rw [harith]
      have hlt : q < rest.length ↔ q + 1 < rest.length + 1 := by omega
      by_cases hm : n + (q + 1) ∈ kn
      · by_cases hl : q < rest.length
        · rw [if_pos ⟨hm, hl⟩, if_pos ⟨hm, hlt.1 hl⟩]
        · rw [if_neg (fun hc => hl hc.2), if_neg (fun hc => hl (hlt.2 hc.2))]
      · rw [if_neg (fun hc => hm hc.1), if_neg (fun hc => hm hc.1)]

theorem Sentence.mark_safe_cells (s : Sentence) (c : Cell) :
    (s.mark_safe c).cells = s.cells.erase c ∧ (s.mark_safe c).count = s.count := by
  unfold Sentence.mark_safe
  split
  · exact ⟨rfl, rfl⟩
  · next hc => rw [Finset.erase_eq_of_not_mem hc]; exact ⟨rfl, rfl⟩

theorem Sentence.mark_mine_cells (s : Sentence) (c : Cell) :
    (s.mark_mine c).cells = s.cells.erase c ∧
    (s.mark_mine c).count = s.count - (if c ∈ s.cells then 1 else 0) := by
  unfold Sentence.mark_mine
  split
  · exact ⟨rfl, rfl⟩
  · next hc => rw [Finset.erase_eq_of_not_mem hc]; exact ⟨rfl, by omega⟩

theorem aiMarkSafe_getD (st : AIState) (c : Cell) (id : ℕ) (hid : id ∈ st.knowledge) :
    ((aiMarkSafe st c).store.getD id default).cells = (st.store.getD id default).cells.erase c ∧
    ((aiMarkSafe st c).store.getD id default).count = (st.store.getD id default).count := by
  have hk : (aiMarkSafe st c).store = markStore (fun s => s.mark_safe c) st.knowledge 0 st.store :=
    rfl
  rw [hk, markStore_getD]
  by_cases hl : id < st.store.length
  · rw [if_pos ⟨by simpa using hid, hl⟩]
    exact Sentence.mark_safe_cells _ c
  · rw [if_neg (fun hc => hl hc.2)]
    have hd : st.store.getD id default = default := by
      rw [List.getD_eq_default]
      omega
    rw [hd]
    exact ⟨(Finset.erase_empty c).symm, rfl⟩

theorem aiMarkMine_getD (st : AIState) (c : Cell) (id : ℕ) (hid : id ∈ st.knowledge) :
    ((aiMarkMine st c).store.getD id default).cells = (st.store.getD id default).cells.erase c ∧
    ((aiMarkMine st c).store.getD id default).count =
      (st.store.getD id default).count -
        (if c ∈ (st.store.getD id default).cells then 1 else 0) := by
  have hk : (aiMarkMine st c).store = markStore (fun s => s.mark_mine c) st.knowledge 0 st.store :=
    rfl
  rw [hk, markStore_getD]
  by_cases hl : id < st.store.length
  · rw [if_pos ⟨by simpa using hid, hl⟩]
    exact Sentence.mark_mine_cells _ c
  · rw [if_neg (fun hc => hl hc.2)]
    have hd : st.store.getD id default = default := by
      rw [List.getD_eq_default]
      omega
    rw [hd]
    refine ⟨(Finset.erase_empty c).symm, ?_⟩
    show (default : Sentence).count = (default : Sentence).count - (if c ∈ (∅ : Finset Cell) then 1 else 0)
    rw [if_neg (Finset.not_mem_empty c)]
    omega

theorem erase_sdiff_insert (A : Finset Cell) (c : Cell) (F : Finset Cell) :
    A.erase c \ F = A \ insert c F := by
  ext x
  simp only [Finset.mem_sdiff, Finset.mem_erase, Finset.mem_insert]
  tauto

theorem aiMarkSafeList_knowledge (cs : List Cell) :
    ∀ st : AIState, (aiMarkSafeList st cs).knowledge = st.knowledge := by
  induction cs with
  | nil => intro st; rfl
  | cons c cs ih => intro st; exact ih (aiMarkSafe st c)

theorem aiMarkMineList_knowledge (cs : List Cell) :
    ∀ st : AIState, (aiMarkMineList st cs).knowledge = st.knowledge := by
  induction cs with
  | nil => intro st; rfl
  | cons c cs ih => intro st; exact ih (aiMarkMine st c)

theorem aiMarkSafeList_getD (cs : List Cell) :
    ∀ (st : AIState) (id : ℕ), id ∈ st.knowledge →
    ((aiMarkSafeList st cs).store.getD id default).cells =
      (st.store.getD id default).cells \ cs.toFinset ∧
    ((aiMarkSafeList st cs).store.getD id default).count = (st.store.getD id default).count := by
  induction cs with
  | nil =>
    intro st id _
    simp [aiMarkSafeList]
  | cons c cs ih =>
    intro st id hid
    have hid2 : id ∈ (aiMarkSafe st c).knowledge := hid
    obtain ⟨h1, h2⟩ := ih (aiMarkSafe st c) id hid2
    obtain ⟨g1, g2⟩ := aiMarkSafe_getD st c id hid
    refine ⟨?_, ?_⟩
    · show ((aiMarkSafeList (aiMarkSafe st c) cs).store.getD id default).cells = _
      rw [h1, g1, List.toFinset_cons, erase_sdiff_insert]
    · show ((aiMarkSafeList (aiMarkSafe st c) cs).store.getD id default).count = _
      rw [h2, g2]

theorem aiMarkMineList_getD (cs : List Cell) :
    ∀ (st : AIState) (id : ℕ), cs.Nodup → id ∈ st.knowledge →
    ((aiMarkMineList st cs).store.getD id default).cells =
      (st.store.getD id default).cells \ cs.toFinset ∧
    ((aiMarkMineList st cs).store.getD id default).count =
      (st.store.getD id default).count -
        (((st.store.getD id default).cells ∩ cs.toFinset).card : ℤ) := by
  induction cs with
  | nil =>
    intro st id _ _
    simp [aiMarkMineList]
  | cons c cs ih =>
    intro st id hnd hid
    have hc : c ∉ cs := (List.nodup_cons.1 hnd).1
    have hnd2 : cs.Nodup := (List.nodup_cons.1 hnd).2
    have hid2 : id ∈ (aiMarkMine st c).knowledge := hid
    obtain ⟨h1, h2⟩ := ih (aiMarkMine st c) id hnd2 hid2
    obtain ⟨g1, g2⟩ := aiMarkMine_getD st c id hid
    have hstep : (st.store.getD id default).cells.erase c ∩ cs.toFinset =
        (st.store.getD id default).cells ∩ cs.toFinset := by
      ext x
      simp only [Finset.mem_inter, Finset.mem_erase, List.mem_toFinset]
      constructor
      · intro hx; exact ⟨hx.1.2, hx.2⟩
      · intro hx; exact ⟨⟨fun he => hc (he ▸ hx.2), hx.1⟩, hx.2⟩
    refine ⟨?_, ?_⟩
    · show ((aiMarkMineList (aiMarkMine st c) cs).store.getD id default).cells = _
      rw [h1, g1, List.toFinset_cons, erase_sdiff_insert]
    · show ((aiMarkMineList (aiMarkMine st c) cs).store.getD id default).count = _
      rw [h2, g2, g1, hstep, List.toFinset_cons]
      have hcard : ((st.store.getD id default).cells ∩ insert c cs.toFinset).card =
          ((st.store.getD id default).cells ∩ cs.toFinset).card +
            (if c ∈ (st.store.getD id default).cells then 1 else 0) := by
        by_cases hm : c ∈ (st.store.getD id default).cells
        · have h3 : (st.store.getD id default).cells ∩ insert c cs.toFinset =
              insert c ((st.store.getD id default).cells ∩ cs.toFinset) := by
            ext x
            simp only [Finset.mem_inter, Finset.mem_insert]
            constructor
            · rintro ⟨hx1, hx2 | hx3⟩
              · exact Or.inl hx2
              · exact Or.inr ⟨hx1, hx3⟩
            · rintro (rfl | ⟨hx1, hx2⟩)
              · exact ⟨hm, Or.inl rfl⟩
              · exact ⟨hx1, Or.inr hx2⟩
          rw [if_pos hm, h3, Finset.card_insert_of_not_mem]
          intro hx
          exact hc (List.mem_toFinset.1 (Finset.mem_inter.1 hx).2)
        · have h4 : (st.store.getD id default).cells ∩ insert c cs.toFinset =
              (st.store.getD id default).cells ∩ cs.toFinset := by
            ext x
            simp only [Finset.mem_inter, Finset.mem_insert]
            constructor
            · rintro ⟨hx1, hx2 | hx3⟩
              · exact absurd (hx2 ▸ hx1) hm
              · exact ⟨hx1, hx3⟩
            · rintro ⟨hx1, hx2⟩
              exact ⟨hx1, Or.inr hx2⟩
          rw [if_neg hm, h4, Nat.add_zero]
      rw [hcard]
      by_cases hm : c ∈ (st.store.getD id default).cells <;>
        simp only [hm, if_true, if_false, ite_true, ite_false, not_false_eq_true,
          not_true_eq_false] <;>
        push_cast <;>
        ring

theorem getD_mem_of_lt (l : List ℕ) (i : ℕ) (h : i < l.length) : l.getD i 0 ∈ l := by
  induction l generalizing i with
  | nil => simp at h
  | cons x xs ih =>
    cases i with
    | zero => simp
    | succ j =>
      rw [List.getD_cons_succ]
      exact List.mem_cons_of_mem x (ih j (by simpa using h))

theorem removeValE_eq_some (st : AIState) (v : Finset Cell × ℤ)
    (hex : ∃ id ∈ st.knowledge, valEq (st.store.getD id default) v = true) :
    removeValE st v =
      some { st with
        knowledge := st.knowledge.eraseP (fun id => valEq (st.store.getD id default) v) } := by
  unfold removeValE
  rw [if_pos]
  obtain ⟨id, h1, h2⟩ := hex
  exact List.any_eq_true.2 ⟨id, h1, h2⟩

theorem ckAux_ne_valueError : ∀ (fuel : ℕ) (t : CkTask), ckAux fuel t ≠ .valueError := by
  intro fuel
  induction fuel with
  | zero =>
    intro t h
    exact CkResult.noConfusion h
  | succ f ih =>
    intro t
    cases t with
    | main st =>
      simp only [ckAux]
      cases hh : ckAux f (.loop1 st 0) with
      | ok st1 =>
        dsimp only
        split
        · exact ih _
        · exact fun h => CkResult.noConfusion h
      | valueError => exact absurd hh (ih _)
      | outOfFuel => exact fun h => CkResult.noConfusion h
    | loop1 st i =>
      simp only [ckAux]
      split
      · next hlen =>
        split
        · next h0 =>
          -- count-0 branch: the unguarded removal always finds the sentence
          have hid : st.knowledge.getD i 0 ∈ st.knowledge := getD_mem_of_lt _ _ hlen
          obtain ⟨e1, e2⟩ := aiMarkSafeList_getD
            (cellList (st.store.getD (st.knowledge.getD i 0) default).cells) st
            (st.knowledge.getD i 0) hid
          rw [cellList_toFinset, Finset.sdiff_self] at e1
          have hval : valEq
              ((aiMarkSafeList st
                (cellList (st.store.getD (st.knowledge.getD i 0) default).cells)).store.getD
                  (st.knowledge.getD i 0) default) (∅, 0) = true := by
            rw [valEq, decide_eq_true_eq]
            exact ⟨e1, by rw [e2, h0]⟩
          rw [removeValE_eq_some _ _ ⟨st.knowledge.getD i 0,
            by rw [aiMarkSafeList_knowledge]; exact hid, hval⟩]
          dsimp only
          cases hh : ckAux f (.main _) with
          | ok stC =>
            dsimp only
            exact ih _
          | valueError => exact absurd hh (ih _)
          | outOfFuel => exact fun h => CkResult.noConfusion h
        · split
          · next h0 h1 =>
            have hid : st.knowledge.getD i 0 ∈ st.knowledge := getD_mem_of_lt _ _ hlen
            obtain ⟨e1, e2⟩ := aiMarkMineList_getD
              (cellList (st.store.getD (st.knowledge.getD i 0) default).cells) st
              (st.knowledge.getD i 0)
              (cellList_nodup _) hid
            rw [cellList_toFinset, Finset.sdiff_self] at e1
            rw [cellList_toFinset, Finset.inter_self] at e2
            have hval : valEq
                ((aiMarkMineList st
                  (cellList (st.store.getD (st.knowledge.getD i 0) default).cells)).store.getD
                    (st.knowledge.getD i 0) default) (∅, 0) = true := by
              rw [valEq, decide_eq_true_eq]
              refine ⟨e1, ?_⟩
              rw [e2]
              omega
            rw [removeValE_eq_some _ _ ⟨st.knowledge.getD i 0,
              by rw [aiMarkMineList_knowledge]; exact hid, hval⟩]
            dsimp only
            cases hh : ckAux f (.main _) with
            | ok stC =>
              dsimp only
              exact ih _
            | valueError => exact absurd hh (ih _)
            | outOfFuel => exact fun h => CkResult.noConfusion h
          · exact ih _
      · exact fun h => CkResult.noConfusion h
    | loop2 st L =>
      cases L with
      | nil =>
        simp only [ckAux]
        exact fun h => CkResult.noConfusion h
      | cons p rest =>
        obtain ⟨a, b⟩ := p
        simp only [ckAux]
        split
        · split
          · cases hh : ckAux f (.main _) with
            | ok st4 =>
              dsimp only
              exact ih _
            | valueError => exact absurd hh (ih _)
            | outOfFuel => exact fun h => CkResult.noConfusion h
          · split
            · cases hh : ckAux f (.main _) with
              | ok st4 =>
                dsimp only
                exact ih _
              | valueError => exact absurd hh (ih _)
              | outOfFuel => exact fun h => CkResult.noConfusion h
            · exact ih _
        · exact ih _

/-- C5: propagation never fails with the `ValueError` of an unguarded
`knowledge.remove`: whenever the count-0 or all-mines branch removes a
sentence, a structurally equal sentence is still present in the live
collection (the sentence just narrowed to `(∅, 0)` itself), and the
subset-resolution removals are membership-guarded in the source. -/
theorem check_knowledge_never_value_error (fuel : ℕ) (st : AIState) :
    ck fuel st ≠ CkResult.valueError :=
  ckAux_ne_valueError fuel (.main st)

/-- The per-sentence resolution rules of `check_knowledge` apply to the
sentence with store index `id`: its count is 0, or its count equals its
cell count and is positive. -/
def fire1 (st : AIState) (id : ℕ) : Prop :=
  (st.store.getD id default).count = 0 ∨
    (((st.store.getD id default).cells.card : ℤ) = (st.store.getD id default).count ∧
      0 < (st.store.getD id default).count)

/-- The subset-resolution rule applies to the pair of store indices
`(a, b)`: both cell sets non-empty and one a strict subset of the other. -/
def fire2 (st : AIState) (a b : ℕ) : Prop :=
  ((st.store.getD a default).cells ≠ ∅ ∧ (st.store.getD b default).cells ≠ ∅) ∧
    ((st.store.getD b default).cells ⊂ (st.store.getD a default).cells ∨
      (st.store.getD a default).cells ⊂ (st.store.getD b default).cells)

/-- No per-sentence rule applies from position `i` on in the live list. -/
def NoFire1From (st : AIState) (i : ℕ) : Prop :=
  ∀ j, i ≤ j → j < st.knowledge.length → ¬ fire1 st (st.knowledge.getD j 0)

/-- No subset-resolution rule applies to any pair in `L`. -/
def NoFire2 (st : AIState) (L : List (ℕ × ℕ)) : Prop :=
  ∀ p ∈ L, ¬ fire2 st p.1 p.2

/-- A state on which one full pass of `check_knowledge` changes nothing. -/
def Quiescent (st : AIState) : Prop :=
  NoFire1From st 0 ∧ NoFire2 st (combos st.knowledge)

theorem combos_of_short (l : List ℕ) (h : l.length ≤ 1) : combos l = [] := by
  cases l with
  | nil => rfl
  | cons x xs =>
    cases xs with
    | nil => rfl
    | cons y ys => simp at h

theorem removeValE_safe_fire (st : AIState) (i : ℕ) (hlen : i < st.knowledge.length)
    (h0 : (st.store.getD (st.knowledge.getD i 0) default).count = 0) :
    ∃ st2, removeValE (aiMarkSafeList st
      (cellList (st.store.getD (st.knowledge.getD i 0) default).cells)) (∅, 0) = some st2 := by
  have hid : st.knowledge.getD i 0 ∈ st.knowledge := getD_mem_of_lt _ _ hlen
  obtain ⟨e1, e2⟩ := aiMarkSafeList_getD
    (cellList (st.store.getD (st.knowledge.getD i 0) default).cells) st
    (st.knowledge.getD i 0) hid
  rw [cellList_toFinset, Finset.sdiff_self] at e1
  refine ⟨_, removeValE_eq_some _ _ ⟨st.knowledge.getD i 0,
    by rw [aiMarkSafeList_knowledge]; exact hid, ?_⟩⟩
  rw [valEq, decide_eq_true_eq]
  exact ⟨e1, by rw [e2, h0]⟩

theorem removeValE_mine_fire (st : AIState) (i : ℕ) (hlen : i < st.knowledge.length)
    (h1 : ((st.store.getD (st.knowledge.getD i 0) default).cells.card : ℤ) =
      (st.store.getD (st.knowledge.getD i 0) default).count) :
    ∃ st2, removeValE (aiMarkMineList st
      (cellList (st.store.getD (st.knowledge.getD i 0) default).cells)) (∅, 0) = some st2 := by
  have hid : st.knowledge.getD i 0 ∈ st.knowledge := getD_mem_of_lt _ _ hlen
  obtain ⟨e1, e2⟩ := aiMarkMineList_getD
    (cellList (st.store.getD (st.knowledge.getD i 0) default).cells) st
    (st.knowledge.getD i 0) (cellList_nodup _) hid
  rw [cellList_toFinset, Finset.sdiff_self] at e1
  rw [cellList_toFinset, Finset.inter_self] at e2
  refine ⟨_, removeValE_eq_some _ _ ⟨st.knowledge.getD i 0,
    by rw [aiMarkMineList_knowledge]; exact hid, ?_⟩⟩
  rw [valEq, decide_eq_true_eq]
  refine ⟨e1, ?_⟩
  rw [e2]
  omega

/-- Every completed run of `check_knowledge` (at any of the three entry
points) ends in a quiescent state, or — for the two loops — made no change
and certifies that none of its remaining steps fires. -/
theorem ckAux_quiescent : ∀ fuel : ℕ,
    (∀ st st1, ckAux fuel (.main st) = .ok st1 → Quiescent st1) ∧
    (∀ st i st1, ckAux fuel (.loop1 st i) = .ok st1 →
      (st1 = st ∧ NoFire1From st i) ∨ Quiescent st1) ∧
    (∀ st L st1, ckAux fuel (.loop2 st L) = .ok st1 →
      (st1 = st ∧ NoFire2 st L) ∨ Quiescent st1) := by
  intro fuel
  induction fuel with
  | zero =>
    refine ⟨fun st st1 h => ?_, fun st i st1 h => ?_, fun st L st1 h => ?_⟩ <;>
      exact CkResult.noConfusion h
  | succ f ih =>
    obtain ⟨ihm, ih1, ih2⟩ := ih
    refine ⟨?_, ?_, ?_⟩
    · -- main
      intro st st1 h
      simp only [ckAux] at h
      cases hh : ckAux f (.loop1 st 0) with
      | ok stA =>
        rw [hh] at h
        dsimp only at h
        rcases ih1 st 0 stA hh with ⟨rfl, hnf⟩ | hq
        · split at h
          · rcases ih2 _ _ _ h with ⟨rfl, hnf2⟩ | hq2
            · exact ⟨hnf, hnf2⟩
            · exact hq2
          · next hnlen =>
            injection h with h'
            subst h'
            refine ⟨hnf, ?_⟩
            rw [combos_of_short _ (by omega)]
            intro p hp
            exact absurd hp (List.not_mem_nil p)
        · split at h
          · rcases ih2 _ _ _ h with ⟨rfl, _⟩ | hq2
            · exact hq
            · exact hq2
          · injection h with h'
            subst h'
            exact hq
      | valueError => rw [hh] at h; exact CkResult.noConfusion h
      | outOfFuel => rw [hh] at h; exact CkResult.noConfusion h
    · -- loop1
      intro st i st1 h
      simp only [ckAux] at h
      split at h
      · next hlen =>
        split at h
        · next h0 =>
          obtain ⟨st2, hrm⟩ := removeValE_safe_fire st i hlen h0
          rw [hrm] at h
          dsimp only at h
          cases hh : ckAux f (.main st2) with
          | ok stC =>
            rw [hh] at h
            dsimp only at h
            rcases ih1 stC (i + 1) st1 h with ⟨rfl, _⟩ | hq
            · exact Or.inr (ihm _ _ hh)
            · exact Or.inr hq
          | valueError => rw [hh] at h; exact CkResult.noConfusion h
          | outOfFuel => rw [hh] at h; exact CkResult.noConfusion h
        · split at h
          · next h0 h1 =>
            obtain ⟨st2, hrm⟩ := removeValE_mine_fire st i hlen h1.1
            rw [hrm] at h
            dsimp only at h
            cases hh : ckAux f (.main st2) with
            | ok stC =>
              rw [hh] at h
              dsimp only at h
              rcases ih1 stC (i + 1) st1 h with ⟨rfl, _⟩ | hq
              · exact Or.inr (ihm _ _ hh)
              · exact Or.inr hq
            | valueError => rw [hh] at h; exact CkResult.noConfusion h
            | outOfFuel => rw [hh] at h; exact CkResult.noConfusion h
          · next h0 h1 =>
            rcases ih1 st (i + 1) st1 h with ⟨he, hnf⟩ | hq
            · refine Or.inl ⟨he, ?_⟩
              intro j hij hjlen
              rcases Nat.eq_or_lt_of_le hij with rfl | hlt
              · rintro (hc | hc)
                · exact h0 hc
                · exact h1 hc
              · exact hnf j hlt hjlen
            · exact Or.inr hq
      · next hlen =>
        injection h with h'
        subst h'
        exact Or.inl ⟨rfl, fun j hij hjlen => absurd hjlen (by omega)⟩
    · -- loop2
      intro st L st1 h
      cases L with
      | nil =>
        simp only [ckAux] at h
        injection h with h'
        subst h'
        exact Or.inl ⟨rfl, fun p hp => absurd hp (List.not_mem_nil p)⟩
      | cons p rest =>
        obtain ⟨a, b⟩ := p
        simp only [ckAux] at h
        split at h
        · next hne =>
          split at h
          · next hsub =>
            cases hh : ckAux f (.main _) with
            | ok st4 =>
              rw [hh] at h
              dsimp only at h
              rcases ih2 st4 rest st1 h with ⟨rfl, _⟩ | hq
              · exact Or.inr (ihm _ _ hh)
              · exact Or.inr hq
            | valueError => rw [hh] at h; exact CkResult.noConfusion h
            | outOfFuel => rw [hh] at h; exact CkResult.noConfusion h
          · split at h
            · next hsub1 hsub2 =>
              cases hh : ckAux f (.main _) with
              | ok st4 =>
                rw [hh] at h
                dsimp only at h
                rcases ih2 st4 rest st1 h with ⟨rfl, _⟩ | hq
                · exact Or.inr (ihm _ _ hh)
                · exact Or.inr hq
              | valueError => rw [hh] at h; exact CkResult.noConfusion h
              | outOfFuel => rw [hh] at h; exact CkResult.noConfusion h
            · next hsub1 hsub2 =>
              rcases ih2 st rest st1 h with ⟨he, hnf⟩ | hq
              · refine Or.inl ⟨he, ?_⟩
                intro q hq2
                rcases List.mem_cons.1 hq2 with rfl | hmem
                · rintro ⟨_, hor | hor⟩
                  · exact hsub1 hor
                  · exact hsub2 hor
                · exact hnf q hmem
              · exact Or.inr hq
        · next hne =>
          rcases ih2 st rest st1 h with ⟨he, hnf⟩ | hq
          · refine Or.inl ⟨he, ?_⟩
            intro q hq2
            rcases List.mem_cons.1 hq2 with rfl | hmem
            · rintro ⟨hc, _⟩
              exact hne hc
            · exact hnf q hmem
          · exact Or.inr hq

theorem loop1_no_fire (st : AIState) :
    ∀ (f i : ℕ), NoFire1From st i → st.knowledge.length ≤ i + f →
      ckAux (f + 1) (.loop1 st i) = .ok st := by
  intro f
  induction f with
  | zero =>
    intro i _ hlen
    simp only [ckAux]
    rw [if_neg (by omega)]
  | succ f ihf =>
    intro i hnf hlen
    simp only [ckAux]
    by_cases hi : i < st.knowledge.length
    · rw [if_pos hi]
      have hnofire := hnf i le_rfl hi
      have h0 : ¬ (st.store.getD (st.knowledge.getD i 0) default).count = 0 :=
        fun e => hnofire (Or.inl e)
      have h1 : ¬ (((st.store.getD (st.knowledge.getD i 0) default).cells.card : ℤ) =
          (st.store.getD (st.knowledge.getD i 0) default).count ∧
          0 < (st.store.getD (st.knowledge.getD i 0) default).count) :=
        fun e => hnofire (Or.inr e)
      rw [if_neg h0, if_neg h1]
      exact ihf (i + 1) (fun j hij hjlen => hnf j (by omega) hjlen) (by omega)
    · rw [if_neg hi]

theorem loop2_no_fire (st : AIState) :
    ∀ (f : ℕ) (L : List (ℕ × ℕ)), NoFire2 st L → L.length ≤ f →
      ckAux (f + 1) (.loop2 st L) = .ok st := by
  intro f
  induction f with
  | zero =>
    intro L hnf hlen
    have : L = [] := List.length_eq_zero.1 (by omega)
    subst this
    rfl
  | succ f ihf =>
    intro L hnf hlen
    cases L with
    | nil => rfl
    | cons p rest =>
      obtain ⟨a, b⟩ := p
      have hnofire := hnf (a, b) (List.mem_cons_self _ _)
      simp only [ckAux]
      by_cases hne : (st.store.getD a default).cells ≠ ∅ ∧ (st.store.getD b default).cells ≠ ∅
      · rw [if_pos hne]
        have hs1 : ¬ (st.store.getD b default).cells ⊂ (st.store.getD a default).cells :=
          fun e => hnofire ⟨hne, Or.inl e⟩
        have hs2 : ¬ (st.store.getD a default).cells ⊂ (st.store.getD b default).cells :=
          fun e => hnofire ⟨hne, Or.inr e⟩
        rw [if_neg hs1, if_neg hs2]
        exact ihf rest (fun q hq => hnf q (List.mem_cons_of_mem _ hq)) (by simpa using hlen)
      · rw [if_neg hne]
        exact ihf rest (fun q hq => hnf q (List.mem_cons_of_mem _ hq)) (by simpa using hlen)

theorem ckAux_main_eq (f : ℕ) (st : AIState) :
    ckAux (f + 1) (.main st) =
      (match ckAux f (.loop1 st 0) with
        | .ok st1 =>
          if 1 < st1.knowledge.length then ckAux f (.loop2 st1 (combos st1.knowledge))
          else .ok st1
        | r => r) := rfl

theorem ck_quiescent_identity (st : AIState) (f : ℕ) (hq : Quiescent st)
    (hf : st.knowledge.length + (combos st.knowledge).length + 2 ≤ f) :
    ck f st = .ok st := by
  match f, hf with
  | g + 2, hf =>
    show ckAux (g + 1 + 1) (.main st) = .ok st
    rw [ckAux_main_eq, loop1_no_fire st g 0 hq.1 (by omega)]
    dsimp only
    split
    · next hlen =>
      exact loop2_no_fire st g (combos st.knowledge) hq.2 (by omega)
    · rfl

/-- C8: propagation is idempotent.  The state produced by any completed
run of `check_knowledge` is quiescent, so running `check_knowledge` on it
again (with fuel at least linear in its size, enough to walk the list and
the pair list once) returns it unchanged: `moved`, `safe`, `mined`, the
store and the live collection are all identical. -/
theorem check_knowledge_idempotent (f g : ℕ) (st st1 : AIState)
    (hrun : ck f st = .ok st1)
    (hg : st1.knowledge.length + (combos st1.knowledge).length + 2 ≤ g) :
    ck g st1 = .ok st1 :=
  ck_quiescent_identity st1 g ((ckAux_quiescent f).1 st st1 hrun) hg

/-- A one-sentence state that propagation resolves completely. -/
def stC8 : AIState := ⟨8, 8, ∅, ∅, ∅, [Sentence.init {(0, 0)} 1], [0]⟩

/-- The quiescent state that `check_knowledge` reaches from `stC8`. -/
def stC8fix : AIState := ⟨8, 8, ∅, {(0, 0)}, ∅, [⟨∅, 0, {(0, 0)}, ∅⟩], []⟩

/-- Witness for `check_knowledge_idempotent`: after the run from `stC8`
completes, a second run leaves the result unchanged. -/
theorem check_knowledge_idempotent_witness :
    ck 10 stC8 = .ok stC8fix ∧ ck 10 stC8fix = .ok stC8fix :=
  ⟨by decide, check_knowledge_idempotent 10 10 stC8 stC8fix (by decide) (by decide)⟩

/-- A sentence is true of the mine layout `L`: exactly `count` of its
cells are mines. -/
def sentenceTrue (L : Finset Cell) (s : Sentence) : Prop :=
  ((s.cells ∩ L).card : ℤ) = s.count

/-- Soundness of an AI state with respect to the mine layout `L` of an
`hgt × wdt` board: the dimensions match, every sentence ever created is
true of `L`, cells classified safe or probed are mine-free, and cells
classified as mines are mines. -/
structure Sound (hgt wdt : ℕ) (L : Finset Cell) (st : AIState) : Prop where
  hh : st.height = hgt
  hw : st.width = wdt
  store_true : ∀ s ∈ st.store, sentenceTrue L s
  safe_not_mine : ∀ c ∈ st.safes, c ∉ L
  mine_in_layout : ∀ c ∈ st.mines, c ∈ L
  moved_not_mine : ∀ c ∈ st.moves_made, c ∉ L

theorem sentenceTrue_default (L : Finset Cell) : sentenceTrue L default := by
  show ((∅ ∩ L).card : ℤ) = 0
  simp

theorem sound_getD {hgt wdt : ℕ} {L : Finset Cell} {st : AIState}
    (hs : Sound hgt wdt L st) (id : ℕ) : sentenceTrue L (st.store.getD id default) := by
  by_cases hl : id < st.store.length
  · rw [List.getD_eq_getElem _ _ hl]
    exact hs.store_true _ (List.getElem_mem hl)
  · rw [List.getD_eq_default _ _ (by omega)]
    exact sentenceTrue_default L

theorem sentenceTrue_mark_safe {L : Finset Cell} {s : Sentence} {c : Cell}
    (hc : c ∉ L) (h : sentenceTrue L s) : sentenceTrue L (s.mark_safe c) := by
  unfold Sentence.mark_safe
  split
  · show ((s.cells.erase c ∩ L).card : ℤ) = s.count
    have he : s.cells.erase c ∩ L = s.cells ∩ L := by
      ext x
      simp only [Finset.mem_inter, Finset.mem_erase]
      constructor
      · rintro ⟨⟨_, h1⟩, h2⟩; exact ⟨h1, h2⟩
      · rintro ⟨h1, h2⟩; exact ⟨⟨fun e => hc (e ▸ h2), h1⟩, h2⟩
    rw [he]
    exact h
  · exact h

theorem sentenceTrue_mark_mine {L : Finset Cell} {s : Sentence} {c : Cell}
    (hc : c ∈ L) (h : sentenceTrue L s) : sentenceTrue L (s.mark_mine c) := by
  unfold Sentence.mark_mine
  split
  · next hm =>
    show ((s.cells.erase c ∩ L).card : ℤ) = s.count - 1
    have he : s.cells.erase c ∩ L = (s.cells ∩ L).erase c := by
      ext x
      simp only [Finset.mem_inter, Finset.mem_erase]
      tauto
    have hcm : c ∈ s.cells ∩ L := Finset.mem_inter.2 ⟨hm, hc⟩
    rw [he, Finset.card_erase_of_mem hcm]
    have hpos : 1 ≤ (s.cells ∩ L).card := Finset.card_pos.2 ⟨c, hcm⟩
    rw [← h]
    push_cast [hpos]
    omega
  · exact h

theorem markStore_mem (f : Sentence → Sentence) (kn : List ℕ) :
    ∀ (store : List Sentence) (n : ℕ) (s : Sentence), s ∈ markStore f kn n store →
      ∃ t ∈ store, s = t ∨ s = f t := by
  intro store
  induction store with
  | nil => intro n s h; exact absurd h (List.not_mem_nil s)
  | cons t rest ih =>
    intro n s h
    rcases List.mem_cons.1 h with he | hm
    · refine ⟨t, List.mem_cons_self _ _, ?_⟩
      by_cases hk : n ∈ kn
      · rw [if_pos hk] at he; exact Or.inr he
      · rw [if_neg hk] at he; exact Or.inl he
    · obtain ⟨u, hu1, hu2⟩ := ih (n + 1) s hm
      exact ⟨u, List.mem_cons_of_mem _ hu1, hu2⟩

theorem sound_aiMarkSafe {hgt wdt : ℕ} {L : Finset Cell} {st : AIState} {c : Cell}
    (hs : Sound hgt wdt L st) (hc : c ∉ L) : Sound hgt wdt L (aiMarkSafe st c) := by
  refine ⟨hs.hh, hs.hw, ?_, ?_, hs.mine_in_layout, hs.moved_not_mine⟩
  · intro s hm
    obtain ⟨t, ht1, ht2⟩ := markStore_mem _ _ st.store 0 s hm
    rcases ht2 with rfl | rfl
    · exact hs.store_true _ ht1
    · exact sentenceTrue_mark_safe hc (hs.store_true _ ht1)
  · intro x hx
    rcases Finset.mem_insert.1 hx with rfl | hx2
    · exact hc
    · exact hs.safe_not_mine x hx2

theorem sound_aiMarkMine {hgt wdt : ℕ} {L : Finset Cell} {st : AIState} {c : Cell}
    (hs : Sound hgt wdt L st) (hc : c ∈ L) : Sound hgt wdt L (aiMarkMine st c) := by
  refine ⟨hs.hh, hs.hw, ?_, hs.safe_not_mine, ?_, hs.moved_not_mine⟩
  · intro s hm
    obtain ⟨t, ht1, ht2⟩ := markStore_mem _ _ st.store 0 s hm
    rcases ht2 with rfl | rfl
    · exact hs.store_true _ ht1
    · exact sentenceTrue_mark_mine hc (hs.store_true _ ht1)
  · intro x hx
    rcases Finset.mem_insert.1 hx with rfl | hx2
    · exact hc
    · exact hs.mine_in_layout x hx2

theorem sound_aiMarkSafeList {hgt wdt : ℕ} {L : Finset Cell} :
    ∀ (cs : List Cell) (st : AIState), Sound hgt wdt L st → (∀ c ∈ cs, c ∉ L) →
      Sound hgt wdt L (aiMarkSafeList st cs) := by
  intro cs
  induction cs with
  | nil => intro st hs _; exact hs
  | cons c cs ih =>
    intro st hs hall
    exact ih (aiMarkSafe st c) (sound_aiMarkSafe hs (hall c (List.mem_cons_self _ _)))
      (fun x hx => hall x (List.mem_cons_of_mem _ hx))

theorem sound_aiMarkMineList {hgt wdt : ℕ} {L : Finset Cell} :
    ∀ (cs : List Cell) (st : AIState), Sound hgt wdt L st → (∀ c ∈ cs, c ∈ L) →
      Sound hgt wdt L (aiMarkMineList st cs) := by
  intro cs
  induction cs with
  | nil => intro st hs _; exact hs
  | cons c cs ih =>
    intro st hs hall
    exact ih (aiMarkMine st c) (sound_aiMarkMine hs (hall c (List.mem_cons_self _ _)))
      (fun x hx => hall x (List.mem_cons_of_mem _ hx))

theorem sound_removeValE {hgt wdt : ℕ} {L : Finset Cell} {st st2 : AIState}
    {v : Finset Cell × ℤ} (h : removeValE st v = some st2) (hs : Sound hgt wdt L st) :
    Sound hgt wdt L st2 := by
  unfold removeValE at h
  split at h
  · injection h with h'
    subst h'
    exact ⟨hs.hh, hs.hw, hs.store_true, hs.safe_not_mine, hs.mine_in_layout, hs.moved_not_mine⟩
  · exact Option.noConfusion h

theorem sound_removeValIf {hgt wdt : ℕ} {L : Finset Cell} {st : AIState}
    {v : Finset Cell × ℤ} (hs : Sound hgt wdt L st) : Sound hgt wdt L (removeValIf st v) :=
  ⟨hs.hh, hs.hw, hs.store_true, hs.safe_not_mine, hs.mine_in_layout, hs.moved_not_mine⟩

theorem sound_appendSentence {hgt wdt : ℕ} {L : Finset Cell} {st : AIState} {s : Sentence}
    (hs : Sound hgt wdt L st) (ht : sentenceTrue L s) : Sound hgt wdt L (appendSentence st s) := by
  refine ⟨hs.hh, hs.hw, ?_, hs.safe_not_mine, hs.mine_in_layout, hs.moved_not_mine⟩
  intro u hu
  rcases List.mem_append.1 hu with hm | hm
  · exact hs.store_true u hm
  · rw [List.mem_singleton.1 hm]
    exact ht

theorem sentenceTrue_derived {L : Finset Cell} {s0 s1 : Sentence}
    (hsub : s1.cells ⊆ s0.cells) (h0 : sentenceTrue L s0) (h1 : sentenceTrue L s1) :
    sentenceTrue L (Sentence.init (s0.cells \ s1.cells) (s0.count - s1.count)) := by
  show (((s0.cells \ s1.cells) ∩ L).card : ℤ) = s0.count - s1.count
  have he : (s0.cells \ s1.cells) ∩ L = (s0.cells ∩ L) \ (s1.cells ∩ L) := by
    ext x
    simp only [Finset.mem_inter, Finset.mem_sdiff]
    constructor
    · rintro ⟨⟨hx0, hx1⟩, hxL⟩
      exact ⟨⟨hx0, hxL⟩, fun hc => hx1 hc.1⟩
    · rintro ⟨⟨hx0, hxL⟩, hx1⟩
      exact ⟨⟨hx0, fun hc => hx1 ⟨hc, hxL⟩⟩, hxL⟩
  have hss : s1.cells ∩ L ⊆ s0.cells ∩ L := by
    intro x hx
    exact Finset.mem_inter.2 ⟨hsub (Finset.mem_inter.1 hx).1, (Finset.mem_inter.1 hx).2⟩
  rw [he, Finset.card_sdiff hss, ← h0, ← h1]
  have := Finset.card_le_card hss
  omega

theorem cells_safe_of_count_zero {L : Finset Cell} {s : Sentence}
    (ht : sentenceTrue L s) (h0 : s.count = 0) : ∀ c ∈ cellList s.cells, c ∉ L := by
  intro c hc hcL
  have hz : ((s.cells ∩ L).card : ℤ) = 0 := by rw [ht, h0]
  have he : s.cells ∩ L = ∅ := Finset.card_eq_zero.1 (by exact_mod_cast hz)
  have hcc : c ∈ s.cells ∩ L := Finset.mem_inter.2 ⟨(cellList_mem _ _).1 hc, hcL⟩
  rw [he] at hcc
  exact Finset.not_mem_empty c hcc

theorem cells_mine_of_count_full {L : Finset Cell} {s : Sentence}
    (ht : sentenceTrue L s) (h1 : (s.cells.card : ℤ) = s.count) :
    ∀ c ∈ cellList s.cells, c ∈ L := by
  have hsub : s.cells ∩ L ⊆ s.cells := Finset.inter_subset_left
  have hcard : ((s.cells ∩ L).card : ℤ) = (s.cells.card : ℤ) := by rw [ht, ← h1]
  have hfull : s.cells ∩ L = s.cells :=
    Finset.eq_of_subset_of_card_le hsub (by exact_mod_cast hcard.ge)
  intro c hc
  have hcc : c ∈ s.cells ∩ L := hfull.symm ▸ (cellList_mem _ _).1 hc
  exact (Finset.mem_inter.1 hcc).2

theorem ckAux_sound (hgt wdt : ℕ) (L : Finset Cell) : ∀ fuel : ℕ,
    (∀ st st1, ckAux fuel (.main st) = .ok st1 → Sound hgt wdt L st → Sound hgt wdt L st1) ∧
    (∀ st i st1, ckAux fuel (.loop1 st i) = .ok st1 → Sound hgt wdt L st →
      Sound hgt wdt L st1) ∧
    (∀ st L2 st1, ckAux fuel (.loop2 st L2) = .ok st1 → Sound hgt wdt L st →
      Sound hgt wdt L st1) := by
  intro fuel
  induction fuel with
  | zero =>
    refine ⟨fun st st1 h => ?_, fun st i st1 h => ?_, fun st L2 st1 h => ?_⟩ <;>
      exact absurd h (fun hc => CkResult.noConfusion hc)
  | succ f ih =>
    obtain ⟨ihm, ih1, ih2⟩ := ih
    refine ⟨?_, ?_, ?_⟩
    · -- main
      intro st st1 h hs
      simp only [ckAux] at h
      cases hh : ckAux f (.loop1 st 0) with
      | ok stA =>
        rw [hh] at h
        dsimp only at h
        have hsA := ih1 st 0 stA hh hs
        split at h
        · exact ih2 _ _ _ h hsA
        · injection h with h'
          subst h'
          exact hsA
      | valueError => rw [hh] at h; exact CkResult.noConfusion h
      | outOfFuel => rw [hh] at h; exact CkResult.noConfusion h
    · -- loop1
      intro st i st1 h hs
      simp only [ckAux] at h
      split at h
      · next hlen =>
        split at h
        · next h0 =>
          obtain ⟨st2, hrm⟩ := removeValE_safe_fire st i hlen h0
          have hsB : Sound hgt wdt L st2 :=
            sound_removeValE hrm (sound_aiMarkSafeList _ _ hs
              (cells_safe_of_count_zero (sound_getD hs _) h0))
          rw [hrm] at h
          dsimp only at h
          cases hh : ckAux f (.main st2) with
          | ok stC =>
            rw [hh] at h
            dsimp only at h
            exact ih1 stC (i + 1) st1 h (ihm _ _ hh hsB)
          | valueError => rw [hh] at h; exact CkResult.noConfusion h
          | outOfFuel => rw [hh] at h; exact CkResult.noConfusion h
        · split at h
          · next h0 h1 =>
            obtain ⟨st2, hrm⟩ := removeValE_mine_fire st i hlen h1.1
            have hsB : Sound hgt wdt L st2 :=
              sound_removeValE hrm (sound_aiMarkMineList _ _ hs
                (cells_mine_of_count_full (sound_getD hs _) h1.1))
            rw [hrm] at h
            dsimp only at h
            cases hh : ckAux f (.main st2) with
            | ok stC =>
              rw [hh] at h
              dsimp only at h
              exact ih1 stC (i + 1) st1 h (ihm _ _ hh hsB)
            | valueError => rw [hh] at h; exact CkResult.noConfusion h
            | outOfFuel => rw [hh] at h; exact CkResult.noConfusion h
          · next h0 h1 => exact ih1 st (i + 1) st1 h hs
      · next hlen =>
        injection h with h'
        subst h'
        exact hs
    · -- loop2
      intro st L2 st1 h hs
      cases L2 with
      | nil =>
        simp only [ckAux] at h
        injection h with h'
        subst h'
        exact hs
      | cons p rest =>
        obtain ⟨a, b⟩ := p
        simp only [ckAux] at h
        split at h
        · next hne =>
          split at h
          · next hsub =>
            have hder : sentenceTrue L (Sentence.init
                ((st.store.getD a default).cells \ (st.store.getD b default).cells)
                ((st.store.getD a default).count - (st.store.getD b default).count)) :=
              sentenceTrue_derived hsub.subset (sound_getD hs a) (sound_getD hs b)
            have hs3 : Sound hgt wdt L (removeValIf (removeValIf
                (appendSentence st (Sentence.init
                  ((st.store.getD a default).cells \ (st.store.getD b default).cells)
                  ((st.store.getD a default).count - (st.store.getD b default).count)))
                ((st.store.getD a default).cells, (st.store.getD a default).count))
                ((st.store.getD b default).cells, (st.store.getD b default).count)) :=
              sound_removeValIf (sound_removeValIf (sound_appendSentence hs hder))
            cases hh : ckAux f (.main _) with
            | ok st4 =>
              rw [hh] at h
              dsimp only at h
              exact ih2 st4 rest st1 h (ihm _ _ hh hs3)
            | valueError => rw [hh] at h; exact CkResult.noConfusion h
            | outOfFuel => rw [hh] at h; exact CkResult.noConfusion h
          · split at h
            · next hsub1 hsub2 =>
              have hder : sentenceTrue L (Sentence.init
                  ((st.store.getD b default).cells \ (st.store.getD a default).cells)
                  ((st.store.getD b default).count - (st.store.getD a default).count)) :=
                sentenceTrue_derived hsub2.subset (sound_getD hs b) (sound_getD hs a)
              have hs3 : Sound hgt wdt L (removeValIf (removeValIf
                  (appendSentence st (Sentence.init
                    ((st.store.getD b default).cells \ (st.store.getD a default).cells)
                    ((st.store.getD b default).count - (st.store.getD a default).count)))
                  ((st.store.getD a default).cells, (st.store.getD a default).count))
                  ((st.store.getD b default).cells, (st.store.getD b default).count)) :=
                sound_removeValIf (sound_removeValIf (sound_appendSentence hs hder))
              cases hh : ckAux f (.main _) with
              | ok st4 =>
                rw [hh] at h
                dsimp only at h
                exact ih2 st4 rest st1 h (ihm _ _ hh hs3)
              | valueError => rw [hh] at h; exact CkResult.noConfusion h
              | outOfFuel => rw [hh] at h; exact CkResult.noConfusion h
            · next hsub1 hsub2 => exact ih2 st rest st1 h hs
        · next hne => exact ih2 st rest st1 h hs

theorem get_nearby_card {hgt wdt : ℕ} {L : Finset Cell} {st : AIState}
    (hs : Sound hgt wdt L st) (cell : Cell) :
    ((get_nearby st cell ∩ L).card : ℤ) = nearby_mines hgt wdt L cell := by
  obtain ⟨hh, hw, hstore, hsafe, hmine, hmoved⟩ := hs
  subst hh
  subst hw
  have he : get_nearby st cell ∩ L =
      ((candList cell).filter fun c =>
        c ≠ cell ∧ 0 ≤ c.1 ∧ c.1 < st.height ∧ 0 ≤ c.2 ∧ c.2 < st.width ∧ c ∈ L).toFinset := by
    ext x
    simp only [get_nearby, Finset.mem_inter, List.mem_toFinset, List.mem_filter,
      decide_eq_true_eq]
    constructor
    · rintro ⟨⟨hc, hne, h1, h2, h3, h4, _, _⟩, hL⟩
      exact ⟨hc, hne, h1, h2, h3, h4, hL⟩
    · rintro ⟨hc, hne, h1, h2, h3, h4, hL⟩
      exact ⟨⟨hc, hne, h1, h2, h3, h4, fun hx => hsafe x hx hL, fun hx => hmoved x hx hL⟩, hL⟩
  rw [he]
  rfl

theorem add_knowledge_sound {hgt wdt : ℕ} {L : Finset Cell} {st st' : AIState}
    {cell : Cell} {cnt : ℤ} {fuel : ℕ}
    (hs : Sound hgt wdt L st) (hcell : cell ∉ L)
    (hcnt : cnt = nearby_mines hgt wdt L cell)
    (hrun : add_knowledge fuel st cell cnt = .ok st') : Sound hgt wdt L st' := by
  unfold add_knowledge at hrun
  dsimp only at hrun
  have hs1 : Sound hgt wdt L { st with moves_made := insert cell st.moves_made } := by
    refine ⟨hs.hh, hs.hw, hs.store_true, hs.safe_not_mine, hs.mine_in_layout, ?_⟩
    intro c hc
    rcases Finset.mem_insert.1 hc with rfl | hc2
    · exact hcell
    · exact hs.moved_not_mine c hc2
  have hs2 : Sound hgt wdt L
      (aiMarkSafe { st with moves_made := insert cell st.moves_made } cell) :=
    sound_aiMarkSafe hs1 hcell
  cases hck : ck fuel (aiMarkSafe { st with moves_made := insert cell st.moves_made } cell) with
  | ok st3 =>
    rw [hck] at hrun
    dsimp only at hrun
    have hs3 : Sound hgt wdt L st3 := (ckAux_sound hgt wdt L fuel).1 _ _ hck hs2
    by_cases hemp : get_nearby st3 cell = ∅
    · rw [if_pos hemp] at hrun
      exact (ckAux_sound hgt wdt L fuel).1 _ _ hrun hs3
    · rw [if_neg hemp] at hrun
      have htrue : sentenceTrue L (Sentence.init (get_nearby st3 cell) cnt) := by
        show ((get_nearby st3 cell ∩ L).card : ℤ) = cnt
        rw [hcnt]
        exact get_nearby_card hs3 cell
      exact (ckAux_sound hgt wdt L fuel).1 _ _ hrun (sound_appendSentence hs3 htrue)
  | valueError => rw [hck] at hrun; exact absurd hrun (fun hc => CkResult.noConfusion hc)
  | outOfFuel => rw [hck] at hrun; exact absurd hrun (fun hc => CkResult.noConfusion hc)

theorem runObs_sound {hgt wdt : ℕ} {L : Finset Cell} :
    ∀ (obs : List (Cell × ℤ)) (st st' : AIState) (fuel : ℕ),
      Sound hgt wdt L st → Consistent hgt wdt L obs →
      runObs fuel st obs = .ok st' → Sound hgt wdt L st' := by
  intro obs
  induction obs with
  | nil =>
    intro st st' fuel hs _ hrun
    injection hrun with h'
    subst h'
    exact hs
  | cons p rest ih =>
    intro st st' fuel hs hc hrun
    obtain ⟨c, n⟩ := p
    simp only [runObs] at hrun
    cases hak : add_knowledge fuel st c n with
    | ok stx =>
      rw [hak] at hrun
      have hhead := hc (c, n) (List.mem_cons_self _ _)
      have hsx : Sound hgt wdt L stx :=
        add_knowledge_sound hs hhead.1 hhead.2 hak
      exact ih stx st' fuel hsx (fun q hq => hc q (List.mem_cons_of_mem _ hq)) hrun
    | valueError => rw [hak] at hrun; exact absurd hrun (fun hx => CkResult.noConfusion hx)
    | outOfFuel => rw [hak] at hrun; exact absurd hrun (fun hx => CkResult.noConfusion hx)

theorem initAI_sound (hgt wdt : ℕ) (L : Finset Cell) : Sound hgt wdt L (initAI hgt wdt) := by
  refine ⟨rfl, rfl, ?_, ?_, ?_, ?_⟩
  · intro s hm; exact absurd hm (List.not_mem_nil s)
  · intro c hc; exact absurd hc (Finset.not_mem_empty c)
  · intro c hc; exact absurd hc (Finset.not_mem_empty c)
  · intro c hc; exact absurd hc (Finset.not_mem_empty c)

/-- C4 amended: for every observation sequence that is consistent with a
real mine layout (each observed cell mine-free, each reported count the
true adjacent-mine count of the board), the sets `safes` and `mines` are
disjoint in every state reachable by `add_knowledge` from a fresh AI. -/
theorem safes_mines_disjoint_of_consistent (hgt wdt fuel : ℕ) (L : Finset Cell)
    (obs : List (Cell × ℤ)) (st' : AIState)
    (hc : Consistent hgt wdt L obs) (hrun : runObs fuel (initAI hgt wdt) obs = .ok st') :
    st'.safes ∩ st'.mines = ∅ := by
  have hs : Sound hgt wdt L st' :=
    runObs_sound obs (initAI hgt wdt) st' fuel (initAI_sound hgt wdt L) hc hrun
  rw [Finset.eq_empty_iff_forall_not_mem]
  intro c hcm
  exact hs.safe_not_mine c (Finset.mem_inter.1 hcm).1
    (hs.mine_in_layout c (Finset.mem_inter.1 hcm).2)

/-- The state after the single consistent observation (1,1) → 1 on a
2 by 2 board with one mine at (0,0). -/
def c4wSt : AIState :=
  ⟨2, 2, {(1, 1)}, ∅, {(1, 1)}, [⟨{(0, 0), (0, 1), (1, 0)}, 1, ∅, ∅⟩], [0]⟩

/-- Witness for `safes_mines_disjoint_of_consistent` on a consistent
one-observation run. -/
theorem safes_mines_disjoint_of_consistent_witness :
    runObs 10 (initAI 2 2) [((1, 1), 1)] = .ok c4wSt ∧ c4wSt.safes ∩ c4wSt.mines = ∅ :=
  ⟨by decide, safes_mines_disjoint_of_consistent 2 2 10 {(0, 0)} [((1, 1), 1)] c4wSt
    (by simp only [Consistent]; decide) (by decide)⟩

/-- The state reached by the inconsistent observation sequence
`(0,0) → 3` then `(0,1) → 0` on a 2 by 2 board. -/
def c4badSt : AIState :=
  ⟨2, 2, {(0, 0), (0, 1)}, {(0, 1), (1, 0), (1, 1)}, {(0, 0), (0, 1), (1, 0), (1, 1)},
    [⟨∅, 0, {(0, 1), (1, 0), (1, 1)}, ∅⟩, ⟨∅, 0, ∅, {(1, 0), (1, 1)}⟩], []⟩

/-- C4 counterexample: under an arbitrary (board-inconsistent) sequence of
`add_knowledge` calls the disjointness of `safes` and `mines` fails: after
`add_knowledge((0,0), 3)` and `add_knowledge((0,1), 0)` on a 2 by 2 AI,
the cell (0,1) is classified both as a mine and as safe. -/
theorem c4_disjointness_fails_on_arbitrary_calls :
    runObs 20 (initAI 2 2) [((0, 0), 3), ((0, 1), 0)] = .ok c4badSt ∧
    ((0:ℤ), (1:ℤ)) ∈ c4badSt.safes ∧ ((0:ℤ), (1:ℤ)) ∈ c4badSt.mines ∧
    c4badSt.safes ∩ c4badSt.mines ≠ ∅ := by
  refine ⟨by decide, by decide, by decide, by decide⟩
